/-
Verification of the delta-converter ingestion pipeline
(k8s/o11y_cluster/delta-converter/converter.py).

Shallow embedding: Python values in a type-inference sample are modelled by
`PyVal` (integers, bools, floats-as-rationals, strings, and opaque
collection tags for lists/dicts, which is all `_infer_column_type`
inspects); a pandas series is a `List (Option PyVal)` where `none` is a
missing/NaN entry removed by `dropna`.  JSON documents are modelled by
`JVal`.  Machine floats are idealised as rationals: the arithmetic the
claims exercise (division of small exact integers) is exact in both.
-/
import Mathlib

set_option maxHeartbeats 1000000

/-- Semantic column types produced by the converter (pyarrow types). -/
inductive PAType where
  | string
  | int64
  | float64
  | bool
  | tsUs   -- pa.timestamp with microsecond precision, UTC
  | tsNs   -- pa.timestamp with nanosecond precision, UTC
deriving DecidableEq, Repr

/-- In-memory representation dtypes of a pandas column, as far as
`_get_delta_schema` distinguishes them. -/
inductive PDtype where
  | int64
  | int32
  | float64
  | float32
  | object
  | pdString
  | datetime64
deriving DecidableEq, Repr

/-- A Python value as inspected by `_infer_column_type`: the code only ever
looks at `isinstance` tags, string contents and numeric parses, so list and
dict values are opaque tags here. -/
inductive PyVal where
  | int (n : Int)
  | bool (b : Bool)
  | float (q : ℚ)
  | str (s : String)
  | list
  | dict
deriving DecidableEq, Repr

/-- Model of Python `s.replace('-', '')`: delete every minus sign. -/
def pyReplaceMinus (s : String) : String :=
  String.mk (s.data.filter (fun c => c ≠ '-'))

/-- Model of Python `str.isdigit` (restricted to ASCII digits): nonempty and
all characters are digits. -/
def pyIsdigit (s : String) : Bool :=
  !s.data.isEmpty && s.data.all (fun c => c.isDigit)

/-- The filter `x not in ['None', '']` of `_infer_column_type`: only the two
literal strings compare equal to a member of that list. -/
def isNoneOrEmptyStr : PyVal → Bool
  | .str s => s = "None" || s = ""
  | _ => false

/-- `isinstance(x, (list, dict))`. -/
def isCollection : PyVal → Bool
  | .list => true
  | .dict => true
  | _ => false

/-- One value of the integer test of `_infer_column_type`:
`isinstance(x, (int, bool)) or (isinstance(x, str) and
x.replace('-', '').isdigit())`. -/
def intCheckVal : PyVal → Bool
  | .int _ => true
  | .bool _ => true
  | .str s => pyIsdigit (pyReplaceMinus s)
  | _ => false

/-- Character-list core of the Python `float` literal grammar:
`digits [ '.' digits* ] [exp]` or `'.' digits+ [exp]`, with
`exp = (e|E) [sign] digits+`. -/
def floatMantissa (cs : List Char) : Bool :=
  let ds := cs.takeWhile (fun c => c.isDigit)
  let rest := cs.dropWhile (fun c => c.isDigit)
  match rest with
  | [] => !ds.isEmpty
  | '.' :: rest2 =>
      let fs := rest2.takeWhile (fun c => c.isDigit)
      let rest3 := rest2.dropWhile (fun c => c.isDigit)
      (!ds.isEmpty || !fs.isEmpty) &&
        (match rest3 with
         | [] => true
         | 'e' :: r => expTail r
         | 'E' :: r => expTail r
         | _ => false)
  | 'e' :: r => !ds.isEmpty && expTail r
  | 'E' :: r => !ds.isEmpty && expTail r
  | _ => false
where
  /-- exponent tail: optional sign then one or more digits -/
  expTail (r : List Char) : Bool :=
    let r' := match r with
              | '+' :: t => t
              | '-' :: t => t
              | t => t
    !r'.isEmpty && r'.all (fun c => c.isDigit)

/-- Model of Python `float(s)` succeeding on a string: surrounding
whitespace stripped, optional sign, then a float literal or the special
words inf/infinity/nan (case-insensitive). -/
def pyFloatParse (s : String) : Bool :=
  let cs := ((s.data.dropWhile (fun c => c = ' ')).reverse.dropWhile
              (fun c => c = ' ')).reverse
  let body := match cs with
              | '+' :: t => t
              | '-' :: t => t
              | t => t
  let lower := body.map Char.toLower
  lower = ['i', 'n', 'f'] ||
  lower = ['i', 'n', 'f', 'i', 'n', 'i', 't', 'y'] ||
  lower = ['n', 'a', 'n'] ||
  floatMantissa body

/-- Model of `_is_float`: `float(x)` succeeds (ints, bools, floats, and
float-parseable strings; lists/dicts raise and give `False`). -/
def isFloatVal : PyVal → Bool
  | .int _ => true
  | .bool _ => true
  | .float _ => true
  | .str s => pyFloatParse s
  | _ => false

/-- `isinstance(x, (int, float))` — Python bools are ints. -/
def isinstanceIntFloat : PyVal → Bool
  | .int _ => true
  | .bool _ => true
  | .float _ => true
  | _ => false

/-- One value of the float test of `_infer_column_type`:
`isinstance(x, (int, float)) or self._is_float(x)`. -/
def floatCheckVal (x : PyVal) : Bool :=
  isinstanceIntFloat x || isFloatVal x

/-- The rule cascade of `_infer_column_type` over the `non_null` sample
(the `try/except` wrappers of the source can never fire, since the
comprehensions only evaluate total boolean expressions). -/
def inferColumnTypeCore (nonNull : List PyVal) : PAType :=
  if nonNull.length = 0 then .string
  else if nonNull.any isCollection then .string
  else if (nonNull.filter (fun x => !isNoneOrEmptyStr x)).all intCheckVal then .int64
  else if (nonNull.filter (fun x => !isNoneOrEmptyStr x)).all floatCheckVal then .float64
  else .string

/-- Model of `_infer_column_type`: `non_null = series.dropna()`, then the
rule cascade. -/
def inferColumnType (series : List (Option PyVal)) : PAType :=
  inferColumnTypeCore (series.filterMap id)

/-- A string consisting of an optional leading minus sign followed by one or
more digits.  This follows the specification's wording of the integer rule,
for comparison with the code's `x.replace('-', '').isdigit()` test. -/
def specIntegerString (s : String) : Bool :=
  match s.data with
  | '-' :: rest => !rest.isEmpty && rest.all (fun c => c.isDigit)
  | l => !l.isEmpty && l.all (fun c => c.isDigit)

/-- The type-inference rule cascade as the specification words it: any
collection gives string; else integer when every value is an integer or a
string of an optional leading minus and digits; else float when every value
is numeric or float-parseable; else string. -/
def specInferColumnType (series : List (Option PyVal)) : PAType :=
  let nonNull := series.filterMap id
  if nonNull.length = 0 then .string
  else if nonNull.any isCollection then .string
  else if nonNull.all (fun x =>
      match x with
      | .int _ => true
      | .bool _ => true
      | .str s => specIntegerString s
      | _ => false) then .int64
  else if nonNull.all floatCheckVal then .float64
  else .string

/-- The per-column rule of `_get_delta_schema`: the source walks
`df.columns` and picks a pyarrow type from the column name first, then from
the column's pandas dtype. -/
def deltaFieldType (column : String) (dtype : PDtype) : PAType :=
  if column = "processed_at" || column = "batch_num" then .tsUs
  else if column = "summary_begin_time" || column = "summary_end_time" then .tsNs
  else if column = "first_seen" || column = "last_seen" then
    (if dtype = .object || dtype = .pdString then .string else .tsNs)
  else if column = "is_internal" || column = "prepared" ||
          column = "plan_in_cache" || column = "plan_in_binding" then .bool
  else if column = "index_names" || column = "backoff_types" ||
          column = "auth_users" then .string
  else if dtype = .int64 || dtype = .int32 then .int64
  else if dtype = .float64 || dtype = .float32 then .float64
  else .string

/-- Model of `_get_delta_schema`: a DataFrame is abstracted to its list of
(column name, dtype) pairs, and the schema is the field list built by the
source's loop. -/
def getDeltaSchema (df : List (String × PDtype)) : List (String × PAType) :=
  df.map (fun p => (p.1, deltaFieldType p.1 p.2))

/-- A JSON document, as handled by `json.loads` / `json.dumps` and the
flattening helpers.  Numbers are idealised as rationals. -/
inductive JVal where
  | null
  | bool (b : Bool)
  | num (q : ℚ)
  | str (s : String)
  | arr (elems : List JVal)
  | obj (fields : List (String × JVal))

/-- `isinstance(v, dict)`. -/
def isObjV : JVal → Bool
  | .obj _ => true
  | _ => false

/-- Decimal rendering of a JSON number (exact for the integer-valued
numbers the pipeline's blobs carry). -/
def ratRepr (q : ℚ) : String :=
  if q.den = 1 then toString q.num else toString q.num ++ "/" ++ toString q.den

mutual
/-- Model of `json.dumps(v, ensure_ascii=False, default=str)` with the
default separators `", "` and `": "` (string escaping is not modelled; the
pipeline's keys are plain identifiers). -/
def jsonDumps : JVal → String
  | .null => "null"
  | .bool true => "true"
  | .bool false => "false"
  | .num q => ratRepr q
  | .str s => "\"" ++ s ++ "\""
  | .arr xs => "[" ++ dumpsElems xs ++ "]"
  | .obj fs => "\x7b" ++ dumpsMembers fs ++ "\x7d"

/-- Comma-separated dump of array elements. -/
def dumpsElems : List JVal → String
  | [] => ""
  | [v] => jsonDumps v
  | v :: rest => jsonDumps v ++ ", " ++ dumpsElems rest

/-- Comma-separated dump of object members. -/
def dumpsMembers : List (String × JVal) → String
  | [] => ""
  | [p] => "\"" ++ p.1 ++ "\": " ++ jsonDumps p.2
  | p :: rest => "\"" ++ p.1 ++ "\": " ++ jsonDumps p.2 ++ ", " ++ dumpsMembers rest
end

/-- The allow-list of `_preprocess_complex_fields`. -/
def allowedComplexFields : List String := ["auth_users", "backoff_types", "index_names"]

/-- One item of the loop of `_preprocess_complex_fields`: an allow-listed
key whose value is a dict becomes its JSON text, or None when the dict is
empty (Python truthiness of a dict); everything else is kept as is. -/
def preprocessPair (p : String × JVal) : String × JVal :=
  if p.1 ∈ allowedComplexFields then
    match p.2 with
    | .obj gs => (p.1, if gs.isEmpty then JVal.null else .str (jsonDumps (.obj gs)))
    | w => (p.1, w)
  else p

/-- Model of `_preprocess_complex_fields`: the loop is over the top-level
items only; non-dict inputs are returned unchanged. -/
def preprocessComplexFields : JVal → JVal
  | .obj fs => .obj (fs.map preprocessPair)
  | v => v

/-- The key join of `_flatten_dict`:
`f"{parent_key}{sep}{k}" if parent_key else k` with the default `sep='.'`. -/
def joinKey (parent k : String) : String :=
  if parent = "" then k else parent ++ "." ++ k

/-- The item loop of `_flatten_dict` over a dict's items: a dict value is
recursed into under the joined key, any other value (scalars, lists) is
emitted as one item. -/
def flattenFields : List (String × JVal) → String → List (String × JVal)
  | [], _ => []
  | (k, .obj gs) :: rest, parent =>
      flattenFields gs (joinKey parent k) ++ flattenFields rest parent
  | (k, v) :: rest, parent => (joinKey parent k, v) :: flattenFields rest parent

/-- Model of `_flatten_dict`: a non-dict argument becomes the single item
`value`, a dict is flattened item by item. -/
def flattenDict (d : JVal) (parent : String) : List (String × JVal) :=
  match d with
  | .obj fs => flattenFields fs parent
  | v => [("value", v)]

/-- Skip JSON whitespace. -/
def skipWs : List Char → List Char
  | c :: cs => if c = ' ' || c = '\t' || c = '\n' || c = '\r' then skipWs cs else c :: cs
  | [] => []

/-- Parse the body of a JSON string after the opening quote; supports the
simple escapes the pipeline's blobs can contain. -/
def parseStringBody (acc : List Char) : List Char → Option (String × List Char)
  | '"' :: rest => some (String.mk acc.reverse, rest)
  | '\\' :: c :: rest =>
      if c = '"' || c = '\\' || c = '/' then parseStringBody (c :: acc) rest
      else if c = 'n' then parseStringBody ('\n' :: acc) rest
      else if c = 't' then parseStringBody ('\t' :: acc) rest
      else none
  | c :: rest => parseStringBody (c :: acc) rest
  | [] => none

/-- Digits to a natural number. -/
def digitsToNat (ds : List Char) : Nat :=
  ds.foldl (fun a c => 10 * a + (c.toNat - 48)) 0

/-- Parse a JSON number (integer or simple decimal, as the pipeline's blobs
carry; an exponent form is not modelled). -/
def parseNumber (cs : List Char) : Option (ℚ × List Char) :=
  let (neg, cs1) := match cs with
                    | '-' :: t => (true, t)
                    | t => (false, t)
  let ds := cs1.takeWhile (fun c => c.isDigit)
  let rest := cs1.dropWhile (fun c => c.isDigit)
  if ds.isEmpty then none
  else
    let ip : ℚ := (digitsToNat ds : ℚ)
    let signed : ℚ → ℚ := fun q => if neg then -q else q
    match rest with
    | '.' :: rest2 =>
        let fs := rest2.takeWhile (fun c => c.isDigit)
        let rest3 := rest2.dropWhile (fun c => c.isDigit)
        if fs.isEmpty then none
        else some (signed (ip + (digitsToNat fs : ℚ) / ((10 : ℚ) ^ fs.length)), rest3)
    | _ => some (signed ip, rest)

mutual
/-- Fuel-bounded recursive-descent parser for one JSON value, modelling the
subset of `json.loads` the pipeline's blob columns use. -/
def parseVal : Nat → List Char → Option (JVal × List Char)
  | 0, _ => none
  | fuel + 1, cs =>
    match skipWs cs with
    | 'n' :: 'u' :: 'l' :: 'l' :: rest => some (.null, rest)
    | 't' :: 'r' :: 'u' :: 'e' :: rest => some (.bool true, rest)
    | 'f' :: 'a' :: 'l' :: 's' :: 'e' :: rest => some (.bool false, rest)
    | '"' :: rest => (parseStringBody [] rest).map (fun p => (.str p.1, p.2))
    | '\x7b' :: rest =>
        (match skipWs rest with
         | '\x7d' :: rest2 => some (.obj [], rest2)
         | _ => (parseMembers fuel [] rest).map (fun p => (.obj p.1, p.2)))
    | '[' :: rest =>
        (match skipWs rest with
         | ']' :: rest2 => some (.arr [], rest2)
         | _ => (parseElems fuel [] rest).map (fun p => (.arr p.1, p.2)))
    | cs' => (parseNumber cs').map (fun p => (.num p.1, p.2))

/-- Parse one or more `"key": value` members then the closing brace. -/
def parseMembers : Nat → List (String × JVal) → List Char → Option (List (String × JVal) × List Char)
  | 0, _, _ => none
  | fuel + 1, acc, cs =>
    match skipWs cs with
    | '"' :: rest =>
        (match parseStringBody [] rest with
         | none => none
         | some (k, rest2) =>
           match skipWs rest2 with
           | ':' :: rest3 =>
               (match parseVal fuel rest3 with
                | none => none
                | some (v, rest4) =>
                  match skipWs rest4 with
                  | ',' :: rest5 => parseMembers fuel (acc ++ [(k, v)]) rest5
                  | '\x7d' :: rest5 => some (acc ++ [(k, v)], rest5)
                  | _ => none)
           | _ => none)
    | _ => none

/-- Parse one or more array elements then the closing bracket. -/
def parseElems : Nat → List JVal → List Char → Option (List JVal × List Char)
  | 0, _, _ => none
  | fuel + 1, acc, cs =>
      match parseVal fuel cs with
      | none => none
      | some (v, rest) =>
        match skipWs rest with
        | ',' :: rest2 => parseElems fuel (acc ++ [v]) rest2
        | ']' :: rest2 => some (acc ++ [v], rest2)
        | _ => none
end

/-- Model of `json.loads`: parse one value and require only whitespace to
remain. -/
def jsonLoads (s : String) : Option JVal :=
  match parseVal (s.data.length + 1) s.data with
  | some (v, rest) => if (skipWs rest).isEmpty then some v else none
  | none => none

/-- Model of `extract_first_user` in `_write_batch_to_delta`: a missing
blob (`pd.notna` false) or an empty string is falsy and gives None; then
the parsed value must be a nonempty dict, whose first key is returned; any
parse failure gives None. -/
def extractFirstUser : Option String → Option String
  | none => none
  | some s =>
    if s = "" then none
    else
      match jsonLoads s with
      | some (.obj ((k, _) :: _)) => some k
      | _ => none

/-- A row of the batch DataFrame restricted to the numeric columns the
average derivation touches: a mapping from column name to value, `none`
being NaN or a missing column. -/
abbrev Row := String → Option ℚ

/-- Column assignment `df[k] = v` restricted to one row. -/
def rowSet (r : Row) (k : String) (v : Option ℚ) : Row :=
  fun c => if c = k then v else r c

/-- Column-list effect of `df[k] = v`. -/
def colsSet (cols : List String) (k : String) : List String :=
  if k ∈ cols then cols else cols ++ [k]

/-- The hoisted denominator
`exec_count = df['exec_count'].astype(float).replace(0, float('nan'))`
restricted to one row: a zero or missing count becomes NaN. -/
def execCountVal (r : Row) : Option ℚ :=
  match r "exec_count" with
  | some e => if e = 0 then none else some e
  | none => none

/-- The `avg_columns_map` table of `_write_batch_to_delta`, verbatim. -/
def avgColumnsMap : List (String × String) :=
  [("sum_latency", "avg_latency"),
   ("sum_parse_latency", "avg_parse_latency"),
   ("sum_compile_latency", "avg_compile_latency"),
   ("sum_process_time", "avg_process_time"),
   ("sum_wait_time", "avg_wait_time"),
   ("sum_backoff_time", "avg_backoff_time"),
   ("sum_total_keys", "avg_total_keys"),
   ("sum_processed_keys", "avg_processed_keys"),
   ("sum_prewrite_time", "avg_prewrite_time"),
   ("sum_commit_time", "avg_commit_time"),
   ("sum_get_commit_ts_time", "avg_get_commit_ts_time"),
   ("sum_commit_backoff_time", "avg_commit_backoff_time"),
   ("sum_resolve_lock_time", "avg_resolve_lock_time"),
   ("sum_local_latch_time", "avg_local_latch_wait_time"),
   ("sum_write_keys", "avg_write_keys"),
   ("sum_write_size", "avg_write_size"),
   ("sum_prewrite_region_num", "avg_prewrite_regions"),
   ("sum_txn_retry", "avg_txn_retry"),
   ("sum_mem", "avg_mem"),
   ("sum_disk", "avg_disk"),
   ("sum_affected_rows", "avg_affected_rows"),
   ("sum_rocksdb_delete_skipped_count", "avg_rocksdb_delete_skipped_count"),
   ("sum_rocksdb_key_skipped_count", "avg_rocksdb_key_skipped_count"),
   ("sum_rocksdb_block_cache_hit_count", "avg_rocksdb_block_cache_hit_count"),
   ("sum_rocksdb_block_read_count", "avg_rocksdb_block_read_count"),
   ("sum_rocksdb_block_read_byte", "avg_rocksdb_block_read_byte"),
   ("sum_kv_total", "avg_kv_time"),
   ("sum_pd_total", "avg_pd_time"),
   ("sum_backoff_total", "avg_backoff_total_time"),
   ("sum_write_sql_resp_total", "avg_write_sql_resp_time"),
   ("sum_tidb_cpu", "avg_tidb_cpu_time"),
   ("sum_tikv_cpu", "avg_tikv_cpu_time"),
   ("sum_result_rows", "avg_result_rows")]

/-- One row's pass through the derivation loop
`for sum_col, avg_col in avg_columns_map.items(): if sum_col in df.columns:
df[avg_col] = df[sum_col].astype(float) / exec_count`, with the hoisted
exec-count value `e0`.  Division of NaN or by NaN is NaN (`none`). -/
def deriveRowGo (e0 : Option ℚ) : List (String × String) → List String → Row → Row
  | [], _, r => r
  | (sumC, avgC) :: rest, cols, r =>
      if sumC ∈ cols then
        deriveRowGo e0 rest (colsSet cols avgC)
          (rowSet r avgC (match r sumC, e0 with
                          | some s, some e => some (s / e)
                          | _, _ => none))
      else deriveRowGo e0 rest cols r

/-- Column-list effect of the derivation loop. -/
def deriveColsGo : List (String × String) → List String → List String
  | [], cols => cols
  | (sumC, avgC) :: rest, cols =>
      if sumC ∈ cols then deriveColsGo rest (colsSet cols avgC)
      else deriveColsGo rest cols

/-- Model of the average-derivation block of `_write_batch_to_delta`: the
whole block is gated on `'exec_count' in df.columns`; the vectorized
column operations of the source act row-wise, so each row passes through
the loop with its own hoisted exec-count denominator. -/
def deriveAvgColumns (cols : List String) (rows : List Row) : List String × List Row :=
  if "exec_count" ∈ cols then
    (deriveColsGo avgColumnsMap cols,
     rows.map (fun r => deriveRowGo (execCountVal r) avgColumnsMap cols r))
  else (cols, rows)

/-- Outcome of one `write_deltalake` attempt: success, a failure whose
message contains "Metadata changed", or any other failure. -/
inductive AttemptOutcome where
  | ok
  | conflictFail
  | otherFail
deriving DecidableEq, Repr

/-- Observable effects of one call of `_write_batch_to_delta`'s retry loop:
how many appends became durable, the sleeps performed (seconds, in order),
and whether the call raised. -/
structure WriteResult where
  appends : Nat
  sleeps : List Nat
  raised : Bool
deriving DecidableEq, Repr

/-- `max_retries = 3` in `_write_batch_to_delta`. -/
def maxRetries : Nat := 3

/-- `retry_delay = 1` second in `_write_batch_to_delta`. -/
def retryDelay : Nat := 1

/-- The loop `for attempt in range(max_retries)` of `_write_batch_to_delta`:
success breaks; a conflict failure with `attempt < max_retries - 1` sleeps
`retry_delay * (2 ** attempt)` and continues; anything else re-raises. -/
def writeRetryGo (att : Nat → AttemptOutcome) : Nat → Nat → List Nat → WriteResult
  | 0, _, sleeps => ⟨0, sleeps, false⟩
  | fuel + 1, attempt, sleeps =>
    match att attempt with
    | .ok => ⟨1, sleeps, false⟩
    | .conflictFail =>
        if attempt < maxRetries - 1 then
          writeRetryGo att fuel (attempt + 1) (sleeps ++ [retryDelay * 2 ^ attempt])
        else ⟨0, sleeps, true⟩
    | .otherFail => ⟨0, sleeps, true⟩

/-- The retry loop started as the source starts it. -/
def writeBatchRetry (att : Nat → AttemptOutcome) : WriteResult :=
  writeRetryGo att maxRetries 0 []

/-- One candidate source file in a run, with an oracle for the behaviour of
its external effects: whether reading it succeeds, how many flat records it
yields, the outcome of each table-append attempt, and whether the ledger
append raises. -/
structure FileSpec where
  fid : String
  readable : Bool
  records : Nat
  attempts : Nat → AttemptOutcome
  saveFails : Bool

/-- The durable state a run manipulates: table appends as (file id, record
count) in order, newly appended ledger entries in order, and whether the
run aborted with an exception. -/
structure RunState where
  table : List (String × Nat)
  ledger : List String
  aborted : Bool
deriving DecidableEq, Repr

/-- Model of `_save_processed_files`: append the id to the ledger; any
exception is caught and only logged, leaving the ledger unchanged. -/
def saveProcessedFiles (f : FileSpec) (st : RunState) : RunState :=
  if f.saveFails then st else { st with ledger := st.ledger ++ [f.fid] }

/-- The incremental filter of `convert_statements`/`convert_slowlogs`:
`new_files = [f for f in files if f not in self.processed_files]`. -/
def selectNewFiles (processed : List String) (files : List FileSpec) : List FileSpec :=
  files.filter (fun f => decide (f.fid ∉ processed))

/-- The per-file loop of `convert_statements`/`convert_slowlogs`: a read
failure logs and continues; a nonempty batch is written, and a raising
write propagates out of the loop (aborting the run with nothing further
processed); then the file is marked processed (also when it yielded zero
records). -/
def runGo : List FileSpec → RunState → RunState
  | [], st => st
  | f :: rest, st =>
    if f.readable then
      if 0 < f.records then
        if (writeBatchRetry f.attempts).raised then { st with aborted := true }
        else runGo rest
          (saveProcessedFiles f { st with table := st.table ++ [(f.fid, f.records)] })
      else runGo rest (saveProcessedFiles f st)
    else runGo rest st

/-- One conversion run (either log family): filter out already-processed
files, then process the rest in order. -/
def convertLogs (processed : List String) (files : List FileSpec) : RunState :=
  runGo (selectNewFiles processed files) ⟨[], [], false⟩

/-- An empty row / default row mapping (every column missing). -/
def emptyRow : Row := fun _ => none

/-- Claim C5, counterexample: the code's integer test strips every minus
sign before `isdigit`, so the value `"1-2"` is inferred as an integer
column, while the specification's rule (optional leading minus then
digits) makes it neither integer- nor float-parseable, hence string. -/
theorem inferColumnType_interior_minus_counterexample :
    inferColumnType [some (.str "1-2")] = .int64 ∧
    specInferColumnType [some (.str "1-2")] = .string ∧
    PAType.int64 ≠ PAType.string := by
  decide

/-- Claim C5, amended: for a nonempty non-null sample, the rules apply in
source order with first match winning: any non-stringified collection
gives string; otherwise integer when every value (other than the literal
strings `'None'` and `''`, which are skipped) is an int/bool or a string
whose characters are all digits after deleting every minus sign (interior
minus signs included); otherwise float when every such value is numeric or
float-parseable; otherwise string. -/
theorem inferColumnType_rule_order (series : List (Option PyVal))
    (h : series.filterMap id ≠ []) :
    ((∃ x ∈ series.filterMap id, isCollection x = true) →
        inferColumnType series = .string) ∧
    ((∀ x ∈ series.filterMap id, isCollection x = false) →
      (∀ x ∈ (series.filterMap id).filter (fun x => !isNoneOrEmptyStr x),
          intCheckVal x = true) →
        inferColumnType series = .int64) ∧
    ((∀ x ∈ series.filterMap id, isCollection x = false) →
      (∃ x ∈ (series.filterMap id).filter (fun x => !isNoneOrEmptyStr x),
          intCheckVal x = false) →
      (∀ x ∈ (series.filterMap id).filter (fun x => !isNoneOrEmptyStr x),
          floatCheckVal x = true) →
        inferColumnType series = .float64) ∧
    ((∀ x ∈ series.filterMap id, isCollection x = false) →
      (∃ x ∈ (series.filterMap id).filter (fun x => !isNoneOrEmptyStr x),
          intCheckVal x = false) →
      (∃ x ∈ (series.filterMap id).filter (fun x => !isNoneOrEmptyStr x),
          floatCheckVal x = false) →
        inferColumnType series = .string) := by
  have hlen : ¬ (series.filterMap id).length = 0 := by
    simpa [List.length_eq_zero] using h
  have noCollection : (∀ x ∈ series.filterMap id, isCollection x = false) →
      ¬ (series.filterMap id).any isCollection = true := by
    intro hnc hany
    obtain ⟨x, hx, hcx⟩ := List.any_eq_true.mp hany
    rw [hnc x hx] at hcx
    exact Bool.false_ne_true hcx
  have notAll : ∀ (p : PyVal → Bool),
      (∃ x ∈ (series.filterMap id).filter (fun x => !isNoneOrEmptyStr x), p x = false) →
      ¬ ((series.filterMap id).filter (fun x => !isNoneOrEmptyStr x)).all p = true := by
    rintro p ⟨x, hx, hpx⟩ hall
    rw [List.all_eq_true.mp hall x hx] at hpx
    simp at hpx
  refine ⟨?_, ?_, ?_, ?_⟩
  · rintro ⟨x, hx, hcx⟩
    have hany : (series.filterMap id).any isCollection = true :=
      List.any_eq_true.mpr ⟨x, hx, hcx⟩
    simp only [inferColumnType, inferColumnTypeCore]
    rw [if_neg hlen, if_pos hany]
  · intro hnc hint
    simp only [inferColumnType, inferColumnTypeCore]
    rw [if_neg hlen, if_neg (noCollection hnc), if_pos (List.all_eq_true.mpr hint)]
  · intro hnc hnint hfl
    simp only [inferColumnType, inferColumnTypeCore]
    rw [if_neg hlen, if_neg (noCollection hnc), if_neg (notAll _ hnint),
      if_pos (List.all_eq_true.mpr hfl)]
  · intro hnc hnint hnfl
    simp only [inferColumnType, inferColumnTypeCore]
    rw [if_neg hlen, if_neg (noCollection hnc), if_neg (notAll _ hnint),
      if_neg (notAll _ hnfl)]

/-- Witness for `inferColumnType_rule_order` at a concrete sample. -/
theorem inferColumnType_rule_order_witness :
    inferColumnType [some (.int 7), some (.str "12"), none] = .int64 :=
  (inferColumnType_rule_order [some (.int 7), some (.str "12"), none]
    (by decide)).2.1 (by decide) (by decide)

/-- Claim C10: a column whose observed values are all missing has an empty
non-null sample, and `_infer_column_type` returns string for it; the
inference is a total function. -/
theorem inferColumnType_all_missing (series : List (Option PyVal))
    (h : ∀ x ∈ series, x = none) :
    inferColumnType series = .string := by
  have hnil : series.filterMap id = [] := by
    rw [List.filterMap_eq_nil_iff]
    intro a ha
    exact h a ha
  simp [inferColumnType, hnil, inferColumnTypeCore]

/-- Witness for `inferColumnType_all_missing` at a concrete all-null
series. -/
theorem inferColumnType_all_missing_witness :
    inferColumnType [none, none, none] = .string :=
  inferColumnType_all_missing [none, none, none] (by decide)

/-- Claim C8, counterexample: `_get_delta_schema` types the `batch_num`
column as a microsecond timestamp, not as an integer, even when its pandas
dtype is int64. -/
theorem batch_num_schema_counterexample :
    getDeltaSchema [("batch_num", PDtype.int64)] = [("batch_num", PAType.tsUs)] ∧
    PAType.tsUs ≠ PAType.int64 := by
  decide

/-- Claim C8, amended: in every batch schema, `batch_num` is typed as a
microsecond-UTC timestamp column exactly like `processed_at` (not as an
integer); `summary_begin_time` and `summary_end_time` are nanosecond
timestamps, and `first_seen`/`last_seen` are nanosecond timestamps when
the column is datetime-typed (which the write path arranges with
`pd.to_datetime` before generating the schema). -/
theorem bookkeeping_column_types (df : List (String × PDtype)) :
    (∀ d, ("batch_num", d) ∈ df → ("batch_num", PAType.tsUs) ∈ getDeltaSchema df) ∧
    (∀ d, ("processed_at", d) ∈ df → ("processed_at", PAType.tsUs) ∈ getDeltaSchema df) ∧
    (∀ d, ("summary_begin_time", d) ∈ df →
        ("summary_begin_time", PAType.tsNs) ∈ getDeltaSchema df) ∧
    (∀ d, ("summary_end_time", d) ∈ df →
        ("summary_end_time", PAType.tsNs) ∈ getDeltaSchema df) ∧
    (("first_seen", PDtype.datetime64) ∈ df →
        ("first_seen", PAType.tsNs) ∈ getDeltaSchema df) ∧
    (("last_seen", PDtype.datetime64) ∈ df →
        ("last_seen", PAType.tsNs) ∈ getDeltaSchema df) := by
  refine ⟨?_, ?_, ?_, ?_, ?_, ?_⟩
  · intro d hd
    exact List.mem_map.mpr ⟨("batch_num", d), hd, by simp [deltaFieldType]⟩
  · intro d hd
    exact List.mem_map.mpr ⟨("processed_at", d), hd, by simp [deltaFieldType]⟩
  · intro d hd
    exact List.mem_map.mpr ⟨("summary_begin_time", d), hd, by simp [deltaFieldType]⟩
  · intro d hd
    exact List.mem_map.mpr ⟨("summary_end_time", d), hd, by simp [deltaFieldType]⟩
  · intro hd
    exact List.mem_map.mpr ⟨("first_seen", PDtype.datetime64), hd, by simp [deltaFieldType]⟩
  · intro hd
    exact List.mem_map.mpr ⟨("last_seen", PDtype.datetime64), hd, by simp [deltaFieldType]⟩

/-- Witness for `bookkeeping_column_types` at a concrete DataFrame. -/
theorem bookkeeping_column_types_witness :
    ("batch_num", PAType.tsUs) ∈
      getDeltaSchema [("batch_num", PDtype.int64), ("first_seen", PDtype.datetime64)] ∧
    ("first_seen", PAType.tsNs) ∈
      getDeltaSchema [("batch_num", PDtype.int64), ("first_seen", PDtype.datetime64)] :=
  ⟨(bookkeeping_column_types
      [("batch_num", PDtype.int64), ("first_seen", PDtype.datetime64)]).1
      PDtype.int64 (by decide),
   (bookkeeping_column_types
      [("batch_num", PDtype.int64), ("first_seen", PDtype.datetime64)]).2.2.2.2.1
      (by decide)⟩

/-- Claim C2, counterexample: under a persistent metadata conflict the
loop makes exactly 3 attempts and sleeps only 1s and then 2s before
propagating; the claimed third backoff of 4s never occurs (a conflict on
the final attempt re-raises without sleeping, because of the
`attempt < max_retries - 1` guard). -/
theorem writeRetry_no_4s_backoff_counterexample :
    writeBatchRetry (fun _ => .conflictFail) =
      { appends := 0, sleeps := [1, 2], raised := true } ∧
    (4 : Nat) ∉ (writeBatchRetry (fun _ => .conflictFail)).sleeps ∧
    (writeBatchRetry (fun _ => .conflictFail)).sleeps ≠ [1, 2, 4] := by
  decide

/-- Claim C2, amended: a metadata-conflict failure is retried with
exponential backoff of 1s then 2s, for at most 3 attempts in total (2
retries); a failure with any other cause propagates immediately with no
further attempts, and exhaustion of the retries propagates after the two
sleeps.  Conflict failures on attempts 1 and 2 followed by success on
attempt 3 yield exactly one durable append and the file marked processed;
a non-conflict failure on attempt 1 yields zero appends, no sleeps, and
the file not marked processed. -/
theorem writeRetry_policy (att : Nat → AttemptOutcome) (fid : String) (recs : Nat)
    (hrecs : 0 < recs) :
    ((writeBatchRetry att).sleeps = [] ∨ (writeBatchRetry att).sleeps = [1] ∨
      (writeBatchRetry att).sleeps = [1, 2]) ∧
    (att 0 = .conflictFail → att 1 = .conflictFail → att 2 = .ok →
      writeBatchRetry att = { appends := 1, sleeps := [1, 2], raised := false } ∧
      convertLogs [] [⟨fid, true, recs, att, false⟩] =
        { table := [(fid, recs)], ledger := [fid], aborted := false }) ∧
    (att 0 = .otherFail →
      writeBatchRetry att = { appends := 0, sleeps := [], raised := true } ∧
      convertLogs [] [⟨fid, true, recs, att, false⟩] =
        { table := [], ledger := [], aborted := true }) ∧
    (att 0 = .conflictFail → att 1 = .conflictFail → att 2 = .conflictFail →
      writeBatchRetry att = { appends := 0, sleeps := [1, 2], raised := true }) := by
  refine ⟨?_, ?_, ?_, ?_⟩
  · rcases h0 : att 0 with _ | _ | _
    · left
      simp [writeBatchRetry, writeRetryGo, maxRetries, retryDelay, h0]
    · rcases h1 : att 1 with _ | _ | _
      · right; left
        simp [writeBatchRetry, writeRetryGo, maxRetries, retryDelay, h0, h1]
      · rcases h2 : att 2 with _ | _ | _ <;>
          · right; right
            simp [writeBatchRetry, writeRetryGo, maxRetries, retryDelay, h0, h1, h2]
      · right; left
        simp [writeBatchRetry, writeRetryGo, maxRetries, retryDelay, h0, h1]
    · left
      simp [writeBatchRetry, writeRetryGo, maxRetries, retryDelay, h0]
  · intro h0 h1 h2
    have hw : writeBatchRetry att = { appends := 1, sleeps := [1, 2], raised := false } := by
      simp [writeBatchRetry, writeRetryGo, maxRetries, retryDelay, h0, h1, h2]
    refine ⟨hw, ?_⟩
    simp [convertLogs, selectNewFiles, runGo, saveProcessedFiles, hw, hrecs]
  · intro h0
    have hw : writeBatchRetry att = { appends := 0, sleeps := [], raised := true } := by
      simp [writeBatchRetry, writeRetryGo, maxRetries, retryDelay, h0]
    refine ⟨hw, ?_⟩
    simp [convertLogs, selectNewFiles, runGo, saveProcessedFiles, hw, hrecs]
  · intro h0 h1 h2
    simp [writeBatchRetry, writeRetryGo, maxRetries, retryDelay, h0, h1, h2]

/-- Witness for `writeRetry_policy` at concrete attempt oracles. -/
theorem writeRetry_policy_witness :
    writeBatchRetry (fun n => if n < 2 then .conflictFail else .ok) =
      { appends := 1, sleeps := [1, 2], raised := false } ∧
    convertLogs []
        [⟨"f1", true, 3, fun n => if n < 2 then .conflictFail else .ok, false⟩] =
      { table := [("f1", 3)], ledger := ["f1"], aborted := false } ∧
    writeBatchRetry (fun _ => .otherFail) =
      { appends := 0, sleeps := [], raised := true } ∧
    convertLogs [] [⟨"f2", true, 3, fun _ => .otherFail, false⟩] =
      { table := [], ledger := [], aborted := true } := by
  have h1 := (writeRetry_policy (fun n => if n < 2 then .conflictFail else .ok)
    "f1" 3 (by decide)).2.1 (by decide) (by decide) (by decide)
  have h2 := (writeRetry_policy (fun _ => .otherFail) "f2" 3 (by decide)).2.2.1
    (by decide)
  exact ⟨h1.1, h1.2, h2.1, h2.2⟩

/-- Claim C3, counterexample: when file "a"'s batch write fails for a
non-conflict reason, the raise propagates out of the per-file loop and the
run aborts; the following file "b" is neither written nor marked
processed, so processing does not continue with the next file. -/
theorem write_failure_aborts_run_counterexample :
    convertLogs [] [⟨"a", true, 1, fun _ => .otherFail, false⟩,
                    ⟨"b", true, 1, fun _ => .ok, false⟩] =
      { table := [], ledger := [], aborted := true } ∧
    "b" ∉ (convertLogs [] [⟨"a", true, 1, fun _ => .otherFail, false⟩,
                           ⟨"b", true, 1, fun _ => .ok, false⟩]).ledger ∧
    (convertLogs [] [⟨"a", true, 1, fun _ => .otherFail, false⟩,
                     ⟨"b", true, 1, fun _ => .ok, false⟩]).aborted = true := by
  decide

/-- Claim C3, amended: an unreadable/corrupt file is logged and skipped —
the run is exactly the run without that file, so it is not marked
processed and processing continues with the next file; but a batch write
that fails after exhausting retries (or for a non-conflict reason)
re-raises out of the loop: the file is not marked processed and the whole
run aborts, with no later file processed. -/
theorem per_file_failure_handling (processed : List String) (f : FileSpec)
    (rest : List FileSpec) :
    (f.readable = false →
      convertLogs processed (f :: rest) = convertLogs processed rest) ∧
    (f.fid ∉ processed → f.readable = true → 0 < f.records →
      (writeBatchRetry f.attempts).raised = true →
      convertLogs processed (f :: rest) =
        { table := [], ledger := [], aborted := true }) := by
  constructor
  · intro hr
    by_cases hp : f.fid ∈ processed
    · simp [convertLogs, selectNewFiles, hp]
    · simp [convertLogs, selectNewFiles, hp, runGo, hr]
  · intro hp hr hrec hw
    simp [convertLogs, selectNewFiles, hp, runGo, hr, hrec, hw]

/-- Witness for `per_file_failure_handling` at concrete runs. -/
theorem per_file_failure_handling_witness :
    convertLogs [] [⟨"u", false, 0, fun _ => .ok, false⟩,
                    ⟨"v", true, 2, fun _ => .ok, false⟩] =
      convertLogs [] [⟨"v", true, 2, fun _ => .ok, false⟩] ∧
    convertLogs [] [⟨"w", true, 2, fun _ => .otherFail, false⟩] =
      { table := [], ledger := [], aborted := true } :=
  ⟨(per_file_failure_handling [] ⟨"u", false, 0, fun _ => .ok, false⟩
      [⟨"v", true, 2, fun _ => .ok, false⟩]).1 rfl,
   (per_file_failure_handling [] ⟨"w", true, 2, fun _ => .otherFail, false⟩ []).2
      (by decide) rfl (by decide) (by decide)⟩

/-- Table entries are only appended by the per-file loop, never removed. -/
theorem runGo_table_mono (files : List FileSpec) (st : RunState) :
    ∀ x ∈ st.table, x ∈ (runGo files st).table := by
  induction files generalizing st with
  | nil => intro x hx; simpa [runGo] using hx
  | cons f rest ih =>
    intro x hx
    by_cases hr : f.readable
    · by_cases hrec : 0 < f.records
      · by_cases hw : (writeBatchRetry f.attempts).raised
        · simpa [runGo, hr, hrec, hw] using hx
        · have : x ∈ (saveProcessedFiles f
              { st with table := st.table ++ [(f.fid, f.records)] }).table := by
            by_cases hs : f.saveFails <;>
              simp [saveProcessedFiles, hs, List.mem_append, hx]
          simpa [runGo, hr, hrec, hw] using ih _ x this
      · have : x ∈ (saveProcessedFiles f st).table := by
          by_cases hs : f.saveFails <;> simp [saveProcessedFiles, hs, hx]
        simpa [runGo, hr, hrec] using ih _ x this
    · simpa [runGo, hr] using ih _ x hx

/-- Characterisation of ledger membership after the per-file loop: a newly
ledgered id belongs to a file of the list that was readable, whose ledger
append did not fail, and that either yielded zero records or had its batch
durably appended with the write not raising. -/
theorem runGo_ledger_mem (files : List FileSpec) (st : RunState) (fid : String)
    (h : fid ∈ (runGo files st).ledger) :
    fid ∈ st.ledger ∨ ∃ g, g ∈ files ∧ g.fid = fid ∧ g.readable = true ∧
      g.saveFails = false ∧
      (g.records = 0 ∨ ((writeBatchRetry g.attempts).raised = false ∧
        (g.fid, g.records) ∈ (runGo files st).table)) := by
  induction files generalizing st with
  | nil => left; simpa [runGo] using h
  | cons f rest ih =>
    by_cases hr : f.readable
    · by_cases hrec : 0 < f.records
      · by_cases hw : (writeBatchRetry f.attempts).raised
        · left
          simpa [runGo, hr, hrec, hw] using h
        · have heq : runGo (f :: rest) st =
              runGo rest (saveProcessedFiles f
                { st with table := st.table ++ [(f.fid, f.records)] }) := by
            simp [runGo, hr, hrec, hw]
          rw [heq] at h ⊢
          rcases ih _ h with h1 | ⟨g, hg, hgfid, hgr, hgs, hgrec⟩
          · by_cases hs : f.saveFails
            · left; simpa [saveProcessedFiles, hs] using h1
            · have h1' : fid ∈ st.ledger ++ [f.fid] := by
                simpa [saveProcessedFiles, hs] using h1
              rcases List.mem_append.mp h1' with h2 | h2
              · left; exact h2
              · right
                refine ⟨f, List.mem_cons_self f rest,
                  (List.mem_singleton.mp h2).symm, hr,
                  by simpa using hs, Or.inr ⟨by simpa using hw, ?_⟩⟩
                apply runGo_table_mono
                by_cases hs2 : f.saveFails <;> simp [saveProcessedFiles, hs2]
          · right
            exact ⟨g, List.mem_cons_of_mem f hg, hgfid, hgr, hgs, hgrec⟩
      · have heq : runGo (f :: rest) st = runGo rest (saveProcessedFiles f st) := by
          simp [runGo, hr, hrec]
        rw [heq] at h ⊢
        rcases ih _ h with h1 | ⟨g, hg, hgfid, hgr, hgs, hgrec⟩
        · by_cases hs : f.saveFails
          · left; simpa [saveProcessedFiles, hs] using h1
          · have h1' : fid ∈ st.ledger ++ [f.fid] := by
              simpa [saveProcessedFiles, hs] using h1
            rcases List.mem_append.mp h1' with h2 | h2
            · left; exact h2
            · right
              exact ⟨f, List.mem_cons_self f rest,
                (List.mem_singleton.mp h2).symm, hr,
                by simpa using hs, Or.inl (by omega)⟩
        · right; exact ⟨g, List.mem_cons_of_mem f hg, hgfid, hgr, hgs, hgrec⟩
    · have heq : runGo (f :: rest) st = runGo rest st := by simp [runGo, hr]
      rw [heq] at h ⊢
      rcases ih _ h with h1 | ⟨g, hg, hrest⟩
      · left; exact h1
      · right; exact ⟨g, List.mem_cons_of_mem f hg, hrest⟩

/-- Claim C1: a file id is in the ledger of a run only if every batch
derived from that file (there is one batch per file, present exactly when
the file yielded records) was durably appended to the table; and a file
whose batch write raised after its retries is never marked processed. -/
theorem ledger_only_after_durable_write (processed : List String)
    (files : List FileSpec) (hnd : (files.map FileSpec.fid).Nodup)
    (f : FileSpec) (hf : f ∈ files) :
    (f.fid ∈ (convertLogs processed files).ledger →
      f.records = 0 ∨ (f.fid, f.records) ∈ (convertLogs processed files).table) ∧
    (0 < f.records → (writeBatchRetry f.attempts).raised = true →
      f.fid ∉ (convertLogs processed files).ledger) := by
  have key : f.fid ∈ (convertLogs processed files).ledger →
      f.records = 0 ∨ ((writeBatchRetry f.attempts).raised = false ∧
        (f.fid, f.records) ∈ (convertLogs processed files).table) := by
    intro h
    rcases runGo_ledger_mem _ _ _ h with h1 | ⟨g, hg, hgfid, _, _, hgrec⟩
    · simp at h1
    · have hgmem : g ∈ files := List.mem_of_mem_filter hg
      have hgf : g = f := List.inj_on_of_nodup_map hnd hgmem hf hgfid
      subst hgf
      exact hgrec
  constructor
  · intro h
    rcases key h with h0 | ⟨_, hmem⟩
    · exact Or.inl h0
    · exact Or.inr hmem
  · intro hrec hw h
    rcases key h with h0 | ⟨hw', _⟩
    · omega
    · rw [hw] at hw'
      exact absurd hw' (by decide)

/-- Witness for `ledger_only_after_durable_write`: in a run where the
single file is readable and its write succeeds, the ledgered file's batch
is in the table. -/
theorem ledger_only_after_durable_write_witness :
    ("a", 2) ∈ (convertLogs [] [⟨"a", true, 2, fun _ => AttemptOutcome.ok, false⟩]).table := by
  have h := (ledger_only_after_durable_write []
    [⟨"a", true, 2, fun _ => AttemptOutcome.ok, false⟩] (by decide)
    ⟨"a", true, 2, fun _ => AttemptOutcome.ok, false⟩
    (List.mem_singleton_self _)).1 (by decide)
  rcases h with h0 | h1
  · exact absurd h0 (by decide)
  · exact h1

/-- Claim C9: a failing ledger append is swallowed — the run carries on
into the remaining files with the batch already durably in the table, the
file id absent from the ledger, and therefore the file selected again by
the next run's filter (at-least-once rather than at-most-once). -/
theorem ledger_save_failure_swallowed (processed : List String) (f : FileSpec)
    (rest : List FileSpec) (hnd : ((f :: rest).map FileSpec.fid).Nodup)
    (hp : f.fid ∉ processed) (hr : f.readable = true) (hrec : 0 < f.records)
    (hw : (writeBatchRetry f.attempts).raised = false) (hs : f.saveFails = true) :
    convertLogs processed (f :: rest) =
      runGo (selectNewFiles processed rest)
        { table := [(f.fid, f.records)], ledger := [], aborted := false } ∧
    (f.fid, f.records) ∈ (convertLogs processed (f :: rest)).table ∧
    f.fid ∉ (convertLogs processed (f :: rest)).ledger ∧
    f ∈ selectNewFiles (processed ++ (convertLogs processed (f :: rest)).ledger)
        (f :: rest) := by
  have heq : convertLogs processed (f :: rest) =
      runGo (selectNewFiles processed rest)
        { table := [(f.fid, f.records)], ledger := [], aborted := false } := by
    simp [convertLogs, selectNewFiles, hp, runGo, hr, hrec, hw, saveProcessedFiles, hs]
  have htab : (f.fid, f.records) ∈ (convertLogs processed (f :: rest)).table := by
    rw [heq]
    exact runGo_table_mono _ _ _ (by simp)
  have hled : f.fid ∉ (convertLogs processed (f :: rest)).ledger := by
    intro hmem
    rw [heq] at hmem
    rcases runGo_ledger_mem _ _ _ hmem with h1 | ⟨g, hg, hgfid, _, _, _⟩
    · simp at h1
    · have hgmem : g ∈ rest := List.mem_of_mem_filter hg
      have hin : f.fid ∈ rest.map FileSpec.fid := by
        rw [← hgfid]
        exact List.mem_map_of_mem _ hgmem
      have hnd' := hnd
      rw [List.map_cons] at hnd'
      exact (List.nodup_cons.mp hnd').1 hin
  refine ⟨heq, htab, hled, ?_⟩
  apply List.mem_filter.mpr
  refine ⟨List.mem_cons_self f rest, ?_⟩
  simp only [decide_eq_true_eq]
  intro hmem
  rcases List.mem_append.mp hmem with h1 | h2
  · exact hp h1
  · exact hled h2

/-- Witness for `ledger_save_failure_swallowed` at a concrete run. -/
theorem ledger_save_failure_swallowed_witness :
    convertLogs [] [⟨"s", true, 1, fun _ => AttemptOutcome.ok, true⟩] =
      runGo (selectNewFiles [] [])
        { table := [("s", 1)], ledger := [], aborted := false } ∧
    ("s", 1) ∈ (convertLogs [] [⟨"s", true, 1, fun _ => AttemptOutcome.ok, true⟩]).table ∧
    "s" ∉ (convertLogs [] [⟨"s", true, 1, fun _ => AttemptOutcome.ok, true⟩]).ledger ∧
    (⟨"s", true, 1, fun _ => AttemptOutcome.ok, true⟩ : FileSpec) ∈
      selectNewFiles
        ([] ++ (convertLogs [] [⟨"s", true, 1, fun _ => AttemptOutcome.ok, true⟩]).ledger)
        [⟨"s", true, 1, fun _ => AttemptOutcome.ok, true⟩] :=
  ledger_save_failure_swallowed [] ⟨"s", true, 1, fun _ => AttemptOutcome.ok, true⟩ []
    (by decide) (by decide) rfl (by decide) (by decide) rfl

/-- Membership in a column list after one assignment. -/
theorem colsSet_mem (cols : List String) (k c : String) :
    c ∈ colsSet cols k ↔ c ∈ cols ∨ c = k := by
  unfold colsSet
  by_cases hk : k ∈ cols
  · rw [if_pos hk]
    constructor
    · exact Or.inl
    · rintro (h | rfl)
      · exact h
      · exact hk
  · rw [if_neg hk]
    simp [List.mem_append]

/-- A column that is not a derivation target is untouched by the loop. -/
theorem deriveRowGo_notin_targets (l : List (String × String)) :
    ∀ (e0 : Option ℚ) (cols : List String) (r : Row) (c : String),
    c ∉ l.map Prod.snd → deriveRowGo e0 l cols r c = r c := by
  induction l with
  | nil => intro e0 cols r c _; rfl
  | cons p rest ih =>
    intro e0 cols r c hc
    obtain ⟨s', a'⟩ := p
    rw [List.map_cons, List.mem_cons] at hc
    push_neg at hc
    obtain ⟨hne, hrest⟩ := hc
    by_cases hs : s' ∈ cols
    · simp only [deriveRowGo, if_pos hs]
      rw [ih _ _ _ _ hrest]
      simp [rowSet, hne]
    · simp only [deriveRowGo, if_neg hs]
      exact ih _ _ _ _ hrest

/-- Value written by the derivation loop into a target column: the hoisted
exec-count denominator against the sum column of the same row. -/
theorem deriveRowGo_value (l : List (String × String)) :
    ∀ (e0 : Option ℚ) (cols : List String) (r : Row) (sumC avgC : String),
    (sumC, avgC) ∈ l → (l.map Prod.snd).Nodup →
    (∀ p ∈ l, ∀ q ∈ l, p.1 ≠ q.2) → sumC ∈ cols →
    deriveRowGo e0 l cols r avgC =
      (match r sumC, e0 with
       | some s, some e => some (s / e)
       | _, _ => none) := by
  induction l with
  | nil => intro e0 cols r sumC avgC hmem _ _ _; cases hmem
  | cons p rest ih =>
    intro e0 cols r sumC avgC hmem hnd hst hs
    obtain ⟨s', a'⟩ := p
    rw [List.map_cons] at hnd
    have hnd' := List.nodup_cons.mp hnd
    have hst' : ∀ p ∈ rest, ∀ q ∈ rest, p.1 ≠ q.2 := fun p hp q hq =>
      hst p (List.mem_cons_of_mem _ hp) q (List.mem_cons_of_mem _ hq)
    rcases List.mem_cons.mp hmem with heq | hmem'
    · injection heq with h1 h2
      subst h1
      subst h2
      simp only [deriveRowGo, if_pos hs]
      rw [deriveRowGo_notin_targets _ _ _ _ _ hnd'.1]
      simp [rowSet]
    · have hsa : sumC ≠ a' :=
        hst (sumC, avgC) (List.mem_cons_of_mem _ hmem') (s', a')
          (List.mem_cons_self _ _)
      by_cases hs' : s' ∈ cols
      · simp only [deriveRowGo, if_pos hs']
        rw [ih _ _ _ _ _ hmem' hnd'.2 hst'
          ((colsSet_mem _ _ _).mpr (Or.inl hs))]
        simp [rowSet, hsa]
      · simp only [deriveRowGo, if_neg hs']
        exact ih _ _ _ _ _ hmem' hnd'.2 hst' hs

/-- The column loop never removes a column. -/
theorem deriveColsGo_mono (l : List (String × String)) :
    ∀ (cols : List String) (c : String), c ∈ cols → c ∈ deriveColsGo l cols := by
  induction l with
  | nil => intro cols c h; exact h
  | cons p rest ih =>
    intro cols c h
    obtain ⟨s', a'⟩ := p
    by_cases hs : s' ∈ cols
    · simp only [deriveColsGo, if_pos hs]
      exact ih _ _ ((colsSet_mem _ _ _).mpr (Or.inl h))
    · simp only [deriveColsGo, if_neg hs]
      exact ih _ _ h

/-- The column loop adds the target of every pair whose sum column is
present. -/
theorem deriveColsGo_adds (l : List (String × String)) :
    ∀ (cols : List String) (sumC avgC : String),
    (sumC, avgC) ∈ l → sumC ∈ cols → avgC ∈ deriveColsGo l cols := by
  induction l with
  | nil => intro _ _ _ h _; cases h
  | cons p rest ih =>
    intro cols sumC avgC hmem hs
    obtain ⟨s', a'⟩ := p
    rcases List.mem_cons.mp hmem with heq | hmem'
    · injection heq with h1 h2
      subst h1
      subst h2
      simp only [deriveColsGo, if_pos hs]
      exact deriveColsGo_mono _ _ _ ((colsSet_mem _ _ _).mpr (Or.inr rfl))
    · by_cases hs' : s' ∈ cols
      · simp only [deriveColsGo, if_pos hs']
        exact ih _ _ _ hmem' ((colsSet_mem _ _ _).mpr (Or.inl hs))
      · simp only [deriveColsGo, if_neg hs']
        exact ih _ _ _ hmem' hs

/-- A column of the derived column list is an original column or the
target of a pair whose sum column was present (when no source name is a
target name). -/
theorem deriveColsGo_mem_char (l : List (String × String)) :
    ∀ (cols : List String) (c : String),
    (∀ p ∈ l, ∀ q ∈ l, p.1 ≠ q.2) → c ∈ deriveColsGo l cols →
    c ∈ cols ∨ ∃ p, p ∈ l ∧ p.2 = c ∧ p.1 ∈ cols := by
  induction l with
  | nil => intro cols c _ h; exact Or.inl h
  | cons p rest ih =>
    intro cols c hst h
    obtain ⟨s', a'⟩ := p
    have hst' : ∀ p ∈ rest, ∀ q ∈ rest, p.1 ≠ q.2 := fun p hp q hq =>
      hst p (List.mem_cons_of_mem _ hp) q (List.mem_cons_of_mem _ hq)
    by_cases hs : s' ∈ cols
    · simp only [deriveColsGo, if_pos hs] at h
      rcases ih _ _ hst' h with h1 | ⟨q, hq, hqc, hq1⟩
      · rcases (colsSet_mem _ _ _).mp h1 with h2 | h2
        · exact Or.inl h2
        · exact Or.inr ⟨(s', a'), List.mem_cons_self _ _, h2.symm, hs⟩
      · rcases (colsSet_mem _ _ _).mp hq1 with h2 | h2
        · exact Or.inr ⟨q, List.mem_cons_of_mem _ hq, hqc, h2⟩
        · exact absurd h2 (hst q (List.mem_cons_of_mem _ hq) (s', a')
            (List.mem_cons_self _ _))
    · simp only [deriveColsGo, if_neg hs] at h
      rcases ih _ _ hst' h with h1 | ⟨q, hq, hqc, hq1⟩
      · exact Or.inl h1
      · exact Or.inr ⟨q, List.mem_cons_of_mem _ hq, hqc, hq1⟩

/-- Claim C6: a derived average column exists in the batch exactly when
both `exec_count` and the corresponding sum column are present (assuming
the average column was not already a raw input column), and each row's
derived value is sum / exec_count with a zero or missing exec_count giving
a missing value instead of a division failure. -/
theorem avg_derivation (cols : List String) (rows : List Row) (sumC avgC : String)
    (hmem : (sumC, avgC) ∈ avgColumnsMap) :
    (deriveAvgColumns cols rows).2.length = rows.length ∧
    (avgC ∉ cols →
      (avgC ∈ (deriveAvgColumns cols rows).1 ↔
        ("exec_count" ∈ cols ∧ sumC ∈ cols))) ∧
    ("exec_count" ∈ cols → sumC ∈ cols → ∀ i, i < rows.length →
      ((deriveAvgColumns cols rows).2.getD i emptyRow) avgC =
        (match (rows.getD i emptyRow) sumC, execCountVal (rows.getD i emptyRow) with
         | some s, some e => some (s / e)
         | _, _ => none)) := by
  by_cases hexec : "exec_count" ∈ cols
  · have hunfold : deriveAvgColumns cols rows =
        (deriveColsGo avgColumnsMap cols,
         rows.map (fun r => deriveRowGo (execCountVal r) avgColumnsMap cols r)) := by
      simp [deriveAvgColumns, hexec]
    refine ⟨by rw [hunfold]; simp, ?_, ?_⟩
    · intro havg
      rw [hunfold]
      constructor
      · intro h
        rcases deriveColsGo_mem_char _ _ _ (by decide) h with h1 | ⟨q, hq, hqc, hq1⟩
        · exact absurd h1 havg
        · have hnds : (avgColumnsMap.map Prod.snd).Nodup := by decide
          have hqe : q = (sumC, avgC) :=
            List.inj_on_of_nodup_map hnds hq hmem (by rw [hqc])
          rw [hqe] at hq1
          exact ⟨hexec, hq1⟩
      · rintro ⟨_, hs⟩
        exact deriveColsGo_adds _ _ _ _ hmem hs
    · intro _ hs i hi
      rw [hunfold]
      have hi2 : i < (rows.map (fun r =>
          deriveRowGo (execCountVal r) avgColumnsMap cols r)).length := by
        simpa using hi
      rw [List.getD_eq_get _ _ hi2, List.get_map, List.getD_eq_get _ _ hi]
      exact deriveRowGo_value _ _ _ _ _ _ hmem (by decide) (by decide) hs
  · refine ⟨by simp [deriveAvgColumns, hexec], ?_, ?_⟩
    · intro havg
      simp only [deriveAvgColumns, if_neg hexec]
      constructor
      · intro h
        exact absurd h havg
      · rintro ⟨h, _⟩
        exact absurd h hexec
    · intro h
      exact absurd h hexec

/-- Concrete row with a zero exec_count for the witness. -/
def witnessRow0 : Row := fun c =>
  if c = "exec_count" then some 0 else if c = "sum_latency" then some 500 else none

/-- Concrete row with exec_count 5 for the witness. -/
def witnessRow1 : Row := fun c =>
  if c = "exec_count" then some 5 else if c = "sum_latency" then some 500 else none

/-- Witness for `avg_derivation`: exec_count 0 with sum_latency 500 gives a
missing avg_latency, exec_count 5 with sum_latency 500 gives 100, and the
avg_latency column is derived. -/
theorem avg_derivation_witness :
    ((deriveAvgColumns ["exec_count", "sum_latency"]
        [witnessRow0, witnessRow1]).2.getD 0 emptyRow) "avg_latency" = none ∧
    ((deriveAvgColumns ["exec_count", "sum_latency"]
        [witnessRow0, witnessRow1]).2.getD 1 emptyRow) "avg_latency" = some 100 ∧
    "avg_latency" ∈ (deriveAvgColumns ["exec_count", "sum_latency"]
        [witnessRow0, witnessRow1]).1 := by
  have h := avg_derivation ["exec_count", "sum_latency"] [witnessRow0, witnessRow1]
    "sum_latency" "avg_latency" (by decide)
  refine ⟨?_, ?_, ?_⟩
  · rw [h.2.2 (by decide) (by decide) 0 (by decide)]
    simp [witnessRow0, execCountVal, List.getD]
  · rw [h.2.2 (by decide) (by decide) 1 (by decide)]
    simp [witnessRow1, execCountVal, List.getD]
    norm_num
  · exact (h.2.1 (by decide)).mpr ⟨by decide, by decide⟩

/-- Joining under a nonempty parent is plain dotted concatenation. -/
theorem joinKey_of_ne (parent k : String) (hp : parent ≠ "") :
    joinKey parent k = parent ++ "." ++ k := by
  simp [joinKey, hp]

/-- A key joined under a nonempty parent is nonempty. -/
theorem joinKey_ne_empty (parent k : String) (hp : parent ≠ "") :
    joinKey parent k ≠ "" := by
  rw [joinKey_of_ne parent k hp]
  intro he
  have hd := congrArg String.data he
  simp [String.data_append] at hd

/-- Unique decomposition of a dotted path at its first dot, at the
character-list level. -/
theorem dotfree_append_inj (la : List Char) :
    ∀ (lb lr1 lr2 : List Char), '.' ∉ la → '.' ∉ lb →
    la ++ '.' :: lr1 = lb ++ '.' :: lr2 → la = lb ∧ lr1 = lr2 := by
  induction la with
  | nil =>
    intro lb lr1 lr2 _ hb h
    cases lb with
    | nil => simpa using h
    | cons c cs =>
      simp only [List.nil_append, List.cons_append, List.cons.injEq] at h
      obtain ⟨h1, _⟩ := h
      rw [← h1] at hb
      exact absurd (List.mem_cons_self _ _) hb
  | cons a as ih =>
    intro lb lr1 lr2 ha hb h
    cases lb with
    | nil =>
      simp only [List.nil_append, List.cons_append, List.cons.injEq] at h
      obtain ⟨h1, _⟩ := h
      rw [h1] at ha
      exact absurd (List.mem_cons_self _ _) ha
    | cons b bs =>
      simp only [List.cons_append, List.cons.injEq] at h
      obtain ⟨h1, h2⟩ := h
      have ha' : '.' ∉ as := fun hm => ha (List.mem_cons_of_mem _ hm)
      have hb' : '.' ∉ bs := fun hm => hb (List.mem_cons_of_mem _ hm)
      obtain ⟨e1, e2⟩ := ih bs lr1 lr2 ha' hb' h2
      refine ⟨?_, e2⟩
      rw [h1, e1]

/-- Unique decomposition of a dotted path at its first dot, for strings
whose head segments are dot-free. -/
theorem string_dot_decomp (k1 k2 r1 r2 : String)
    (h1 : '.' ∉ k1.data) (h2 : '.' ∉ k2.data)
    (h : k1 ++ "." ++ r1 = k2 ++ "." ++ r2) : k1 = k2 ∧ r1 = r2 := by
  have hd : k1.data ++ '.' :: r1.data = k2.data ++ '.' :: r2.data := by
    have hcongr := congrArg String.data h
    simpa [String.data_append, List.append_assoc] using hcongr
  obtain ⟨e1, e2⟩ := dotfree_append_inj k1.data k2.data r1.data r2.data h1 h2 hd
  exact ⟨String.ext e1, String.ext e2⟩

/-- Every key produced by flattening under a nonempty parent key extends
the parent by a dot. -/
theorem flattenFields_key_shape (fs : List (String × JVal)) (parent : String) :
    ∀ (key : String) (v : JVal), (key, v) ∈ flattenFields fs parent →
    parent ≠ "" → ∃ t, key = parent ++ "." ++ t := by
  induction fs, parent using flattenFields.induct with
  | case1 parent =>
    intro key v h _
    simp [flattenFields] at h
  | case2 k gs rest parent ih1 ih2 =>
    intro key v h hp
    simp only [flattenFields] at h
    rcases List.mem_append.mp h with h1 | h2
    · obtain ⟨t, ht⟩ := ih1 key v h1 (joinKey_ne_empty parent k hp)
      refine ⟨k ++ "." ++ t, ?_⟩
      rw [ht, joinKey_of_ne parent k hp]
      simp [String.append_assoc]
    · exact ih2 key v h2 hp
  | case3 k v0 rest parent hne ih =>
    intro key v h hp
    simp only [flattenFields] at h
    rcases List.mem_cons.mp h with h1 | h2
    · injection h1 with e1 _
      exact ⟨k, by rw [e1, joinKey_of_ne parent k hp]⟩
    · exact ih key v h2 hp

/-- The cons equation of `flattenFields` for a head whose value is not a
dict. -/
theorem flattenFields_cons_not_obj (k : String) (w : JVal)
    (rest : List (String × JVal)) (parent : String) (hw : isObjV w = false) :
    flattenFields ((k, w) :: rest) parent =
      (joinKey parent k, w) :: flattenFields rest parent := by
  cases w with
  | obj gs => simp [isObjV] at hw
  | null => simp only [flattenFields]
  | bool b => simp only [flattenFields]
  | num q => simp only [flattenFields]
  | str s => simp only [flattenFields]
  | arr es => simp only [flattenFields]

/-- A non-dict item of a dict is emitted verbatim (under its joined key)
by the flattening. -/
theorem flattenFields_mem_of_not_obj (fs : List (String × JVal)) :
    ∀ (parent k : String) (w : JVal), (k, w) ∈ fs → isObjV w = false →
    (joinKey parent k, w) ∈ flattenFields fs parent := by
  induction fs with
  | nil => intro parent k w h _; cases h
  | cons p rest ih =>
    intro parent k w h hw
    obtain ⟨k0, w0⟩ := p
    rcases List.mem_cons.mp h with h1 | h2
    · injection h1 with e1 e2
      subst e1
      subst e2
      rw [flattenFields_cons_not_obj _ _ _ _ hw]
      exact List.mem_cons_self _ _
    · cases hobj : isObjV w0 with
      | false =>
        rw [flattenFields_cons_not_obj _ _ _ _ hobj]
        exact List.mem_cons_of_mem _ (ih parent k w h2 hw)
      | true =>
        cases w0 with
        | obj gs =>
          simp only [flattenFields]
          exact List.mem_append_right _ (ih parent k w h2 hw)
        | null => simp [isObjV] at hobj
        | bool b => simp [isObjV] at hobj
        | num q => simp [isObjV] at hobj
        | str s => simp [isObjV] at hobj
        | arr es => simp [isObjV] at hobj

/-- Characterisation of the keys of a flattened top-level record (its keys
being nonempty): each flattened key either is a top-level key with a
non-dict value, or extends a top-level key with a dict value by a dot. -/
theorem flattenFields_top_mem (fs : List (String × JVal)) :
    ∀ (key : String) (v : JVal), (key, v) ∈ flattenFields fs "" →
    (∀ p ∈ fs, p.1 ≠ "") →
    ∃ k w, (k, w) ∈ fs ∧
      ((isObjV w = false ∧ key = k) ∨
       (isObjV w = true ∧ ∃ t, key = k ++ "." ++ t)) := by
  induction fs with
  | nil => intro key v h _; simp [flattenFields] at h
  | cons p rest ih =>
    intro key v h hne
    obtain ⟨k, w⟩ := p
    cases hobj : isObjV w with
    | false =>
      rw [flattenFields_cons_not_obj _ _ _ _ hobj] at h
      rcases List.mem_cons.mp h with h1 | h2
      · injection h1 with e1 _
        refine ⟨k, w, List.mem_cons_self _ _, Or.inl ⟨hobj, ?_⟩⟩
        rw [e1]
        simp [joinKey]
      · obtain ⟨k', w', hmem, hc⟩ :=
          ih key v h2 (fun p hp => hne p (List.mem_cons_of_mem _ hp))
        exact ⟨k', w', List.mem_cons_of_mem _ hmem, hc⟩
    | true =>
      cases w with
      | obj gs =>
        simp only [flattenFields] at h
        rcases List.mem_append.mp h with h1 | h2
        · have hk : k ≠ "" := hne (k, .obj gs) (List.mem_cons_self _ _)
          rw [show joinKey "" k = k from by simp [joinKey]] at h1
          obtain ⟨t, ht⟩ := flattenFields_key_shape gs k key v h1 hk
          exact ⟨k, .obj gs, List.mem_cons_self _ _, Or.inr ⟨rfl, t, ht⟩⟩
        · obtain ⟨k', w', hmem, hc⟩ :=
            ih key v h2 (fun p hp => hne p (List.mem_cons_of_mem _ hp))
          exact ⟨k', w', List.mem_cons_of_mem _ hmem, hc⟩
      | null => simp [isObjV] at hobj
      | bool b => simp [isObjV] at hobj
      | num q => simp [isObjV] at hobj
      | str s => simp [isObjV] at hobj
      | arr es => simp [isObjV] at hobj

/-- Preprocessing never changes a key. -/
theorem preprocessPair_fst (p : String × JVal) : (preprocessPair p).1 = p.1 := by
  obtain ⟨k, v⟩ := p
  by_cases h : k ∈ allowedComplexFields <;> cases v <;> simp [preprocessPair, h]

/-- After preprocessing, an allow-listed key never carries a dict value. -/
theorem preprocessPair_not_obj (p : String × JVal)
    (hp : p.1 ∈ allowedComplexFields) : isObjV (preprocessPair p).2 = false := by
  obtain ⟨k, v⟩ := p
  cases v with
  | obj gs =>
    simp only [preprocessPair, if_pos hp]
    by_cases hgs : gs.isEmpty <;> simp [hgs, isObjV]
  | null => simp [preprocessPair, hp, isObjV]
  | bool b => simp [preprocessPair, hp, isObjV]
  | num q => simp [preprocessPair, hp, isObjV]
  | str s => simp [preprocessPair, hp, isObjV]
  | arr es => simp [preprocessPair, hp, isObjV]

/-- Claim C4, amended: for a record whose top-level keys are nonempty and
dot-free, a *top-level* allow-listed field is never flattened through — no
key of the resulting FlatRecord extends the allow-listed name by a dotted
path — and when its value is a dict the emitted value is its JSON text (or
None when the dict is empty), verbatim under the original key.  (A
same-named field nested deeper inside another object is still flattened;
see the counterexample.) -/
theorem allowlisted_fields_not_flattened (fs : List (String × JVal))
    (hkeys : ∀ p ∈ fs, p.1 ≠ "" ∧ '.' ∉ p.1.data)
    (kA : String) (hA : kA ∈ allowedComplexFields) :
    (∀ (t : String) (v : JVal),
        (kA ++ "." ++ t, v) ∉ flattenDict (preprocessComplexFields (.obj fs)) "") ∧
    (∀ gs, (kA, JVal.obj gs) ∈ fs →
        (kA, if gs.isEmpty then JVal.null else JVal.str (jsonDumps (.obj gs))) ∈
          flattenDict (preprocessComplexFields (.obj fs)) "") := by
  have hAdf : '.' ∉ kA.data := by
    rcases List.mem_cons.mp hA with rfl | hA2
    · decide
    rcases List.mem_cons.mp hA2 with rfl | hA3
    · decide
    rcases List.mem_cons.mp hA3 with rfl | hA4
    · decide
    cases hA4
  have hflat : flattenDict (preprocessComplexFields (.obj fs)) "" =
      flattenFields (fs.map preprocessPair) "" := rfl
  constructor
  · intro t v hmem
    rw [hflat] at hmem
    have hne' : ∀ p ∈ fs.map preprocessPair, p.1 ≠ "" := by
      intro p hp
      obtain ⟨q, hq, rfl⟩ := List.mem_map.mp hp
      rw [preprocessPair_fst]
      exact (hkeys q hq).1
    obtain ⟨k, w, hkw, hc⟩ := flattenFields_top_mem _ _ _ hmem hne'
    obtain ⟨q, hq, hqe⟩ := List.mem_map.mp hkw
    have hk1 : q.1 = k := by
      rw [← preprocessPair_fst q, hqe]
    have hkdf : '.' ∉ k.data := by
      rw [← hk1]
      exact (hkeys q hq).2
    rcases hc with ⟨_, hkey⟩ | ⟨hobj, t', hkey⟩
    · apply hkdf
      rw [← hkey]
      simp [String.data_append]
    · obtain ⟨e1, _⟩ := string_dot_decomp kA k t t' hAdf hkdf hkey
      have hqA : q.1 ∈ allowedComplexFields := by
        rw [hk1, ← e1]
        exact hA
      have hno := preprocessPair_not_obj q hqA
      rw [hqe] at hno
      rw [hobj] at hno
      exact absurd hno (by decide)
  · intro gs hmemgs
    have hpp : preprocessPair (kA, .obj gs) =
        (kA, if gs.isEmpty then JVal.null else .str (jsonDumps (.obj gs))) := by
      simp [preprocessPair, hA]
    rw [hflat]
    have hval : isObjV (if gs.isEmpty then JVal.null
        else JVal.str (jsonDumps (.obj gs))) = false := by
      by_cases hgs : gs.isEmpty <;> simp [hgs, isObjV]
    have hj := flattenFields_mem_of_not_obj (fs.map preprocessPair) "" kA
      (if gs.isEmpty then JVal.null else .str (jsonDumps (.obj gs)))
      (by rw [← hpp]; exact List.mem_map_of_mem _ hmemgs) hval
    rw [show joinKey "" kA = kA from by simp [joinKey]] at hj
    exact hj

/-- Claim C4, counterexample: a field named `auth_users` nested one level
deeper than the top of the record is not protected by
`_preprocess_complex_fields` (the allow-list is consulted at the top level
only), so flattening recurses through it and emits exploded dotted-path
columns rather than JSON text: the key passes through the `auth_users`
segment. -/
theorem nested_allowlist_flattened_counterexample :
    flattenDict (preprocessComplexFields (JVal.obj
        [("a", JVal.obj
          [("auth_users", JVal.obj [("root", JVal.obj [("x", JVal.num 1)])])])]))
      "" = [("a.auth_users.root.x", JVal.num 1)] ∧
    "a.auth_users.root.x" = "a" ++ "." ++ "auth_users" ++ "." ++ "root.x" ∧
    ('.' ∉ "a".data ∧ '.' ∉ "auth_users".data) := by
  refine ⟨?_, by decide, by decide⟩
  show flattenFields _ "" = _
  rw [show (([("a", JVal.obj
        [("auth_users", JVal.obj [("root", JVal.obj [("x", JVal.num 1)])])])]).map
        preprocessPair) =
      [("a", JVal.obj
        [("auth_users", JVal.obj [("root", JVal.obj [("x", JVal.num 1)])])])] from by
    simp [preprocessPair, allowedComplexFields]]
  simp only [flattenFields, joinKey]
  simp

/-- Witness for `allowlisted_fields_not_flattened` at a concrete record
with a top-level `auth_users` dict. -/
theorem allowlisted_fields_not_flattened_witness :
    ("auth_users", JVal.str (jsonDumps (.obj [("root", JVal.obj [])]))) ∈
      flattenDict (preprocessComplexFields (JVal.obj
        [("auth_users", JVal.obj [("root", JVal.obj [])]), ("x", JVal.num 3)])) "" ∧
    (∀ (t : String) (v : JVal), ("auth_users" ++ "." ++ t, v) ∉
      flattenDict (preprocessComplexFields (JVal.obj
        [("auth_users", JVal.obj [("root", JVal.obj [])]), ("x", JVal.num 3)])) "") := by
  have h := allowlisted_fields_not_flattened
    [("auth_users", JVal.obj [("root", JVal.obj [])]), ("x", JVal.num 3)]
    (by decide) "auth_users" (by decide)
  refine ⟨?_, h.1⟩
  have h2 := h.2 [("root", JVal.obj [])] (List.mem_cons_self _ _)
  simpa using h2

/-- Claim C7: `extract_first_user` is total (never an error): a missing or
empty blob gives None, an unparseable blob gives None, a parsed nonempty
object gives its first key, and a parsed empty object or non-object gives
None; in particular the blob `{"root":{}}` yields "root" and `{}` yields
None. -/
theorem sample_user_extraction :
    extractFirstUser none = none ∧
    extractFirstUser (some "") = none ∧
    (∀ s, jsonLoads s = none → extractFirstUser (some s) = none) ∧
    (∀ s k v fs, jsonLoads s = some (.obj ((k, v) :: fs)) →
        extractFirstUser (some s) = some k) ∧
    (∀ s, jsonLoads s = some (.obj []) → extractFirstUser (some s) = none) ∧
    (∀ s v, jsonLoads s = some v → isObjV v = false →
        extractFirstUser (some s) = none) ∧
    extractFirstUser (some "\x7b\"root\":\x7b\x7d\x7d") = some "root" ∧
    extractFirstUser (some "\x7b\x7d") = none := by
  have hempty : jsonLoads "" = none := by rfl
  refine ⟨rfl, rfl, ?_, ?_, ?_, ?_, by rfl, by rfl⟩
  · intro s h
    by_cases hs : s = ""
    · subst hs; rfl
    · simp [extractFirstUser, hs, h]
  · intro s k v fs h
    by_cases hs : s = ""
    · subst hs
      rw [hempty] at h
      cases h
    · simp [extractFirstUser, hs, h]
  · intro s h
    by_cases hs : s = ""
    · subst hs; rfl
    · simp [extractFirstUser, hs, h]
  · intro s v h hv
    by_cases hs : s = ""
    · subst hs; rfl
    · cases v with
      | obj gfields => simp [isObjV] at hv
      | null => simp [extractFirstUser, hs, h]
      | bool b => simp [extractFirstUser, hs, h]
      | num q => simp [extractFirstUser, hs, h]
      | str s2 => simp [extractFirstUser, hs, h]
      | arr es => simp [extractFirstUser, hs, h]

/-- Witness for `sample_user_extraction` at a further concrete blob. -/
theorem sample_user_extraction_witness :
    extractFirstUser (some "\x7b\"u\":null\x7d") = some "u" :=
  sample_user_extraction.2.2.2.1 "\x7b\"u\":null\x7d" "u" JVal.null [] (by rfl)
